import Mathlib

/-!
Shallow embedding of `xmlparse.py` (LEMON): XML codecs for two document
kinds — per-image translation offsets and photometric annuli candidates.

XML documents are modelled as element trees (`XElem`).  Text nodes and
attribute values are modelled by `XText`, a typed representation of the
strings the program writes: `ofStr` for plain strings, `ofInt` for
`str(<int>)`, `ofRat` for `str(<float>)` (treated as an exact decimal
rendering), `ofFixed p d` for `'%.pf' % x` (the value rounded to `p`
decimal digits, stored scaled by `10^p`), and `ofDate s` for the
fixed-pattern UTC date string rendered by `methods.utctime` (second
resolution).  Python's conversions (`float(...)`, `int(...)`,
`strptime`/`timegm`) become the partial functions `pyFloat`, `pyInt`,
`strptime_timegm` on these values; a missing attribute or text node is
`none` and conversion of it raises `TypeError`, exactly as `int(None)`
does in the source.
-/

/-- Typed model of the text strings written into XML text nodes and
attribute values by `xmlparse.py`. -/
inductive XText : Type where
  | ofStr (s : String)
  | ofInt (n : Int)
  | ofRat (q : ℚ)
  | ofFixed (prec : Nat) (scaled : Int)
  | ofDate (secs : Int)
deriving DecidableEq, Repr

/-- An XML element: tag, attribute list, optional text, children.
Models the `lxml.etree` element trees built and walked by the source. -/
inductive XElem : Type where
  | mk (tag : String) (attrs : List (String × XText)) (text : Option XText)
       (children : List XElem)

/-- The element's tag. -/
def XElem.tag : XElem → String
  | .mk t _ _ _ => t

/-- The element's attribute list. -/
def XElem.attrs : XElem → List (String × XText)
  | .mk _ a _ _ => a

/-- The element's text node, if any. -/
def XElem.text : XElem → Option XText
  | .mk _ _ x _ => x

/-- The element's direct children, in document order. -/
def XElem.children : XElem → List XElem
  | .mk _ _ _ c => c

mutual

/-- Document-order (preorder) iteration over an element's subtree,
including the element itself: `element.getiterator()` in lxml. -/
def XElem.iterAll : XElem → List XElem
  | .mk t a x cs => .mk t a x cs :: iterForest cs

/-- Preorder iteration over a list of sibling subtrees. -/
def iterForest : List XElem → List XElem
  | [] => []
  | e :: es => e.iterAll ++ iterForest es

end

/-- `element.get(key)` in lxml: the value of attribute `key`, if present. -/
def XElem.getAttr (e : XElem) (key : String) : Option XText :=
  (e.attrs.find? (fun p => p.1 == key)).map Prod.snd

/-- Errors raised on the decode paths.  `stopIteration` models
`.next()` on an exhausted `getiterator`; `typeError` models applying
`int`/`float`/`strptime` to `None` (a missing attribute or text node);
`valueError` models a string that does not parse as the requested type.
Note that the decode paths of the source never perform DTD validation,
so no schema-violation error can arise here. -/
inductive LoadErr : Type where
  | stopIteration
  | typeError
  | valueError
deriving DecidableEq, Repr

/-- `get_child(element, tag)` from `XMLOffsetFile.load`: the first
element of the subtree (document order, the element itself included)
with the given tag; `StopIteration` if there is none. -/
def get_child (e : XElem) (tag : String) : Except LoadErr XElem :=
  match e.iterAll.find? (fun c => c.tag == tag) with
  | some c => .ok c
  | none => .error .stopIteration

/-- Python `float(...)` applied to an optional text/attribute value.
`float(None)` raises `TypeError`; a non-numeric string (a plain string
or a date string) raises `ValueError`; numeric renderings recover the
exact value they denote. -/
def pyFloat : Option XText → Except LoadErr ℚ
  | none => .error .typeError
  | some (.ofRat q) => .ok q
  | some (.ofInt n) => .ok (n : ℚ)
  | some (.ofFixed p d) => .ok ((d : ℚ) / (10 : ℚ) ^ p)
  | some (.ofStr _) => .error .valueError
  | some (.ofDate _) => .error .valueError

/-- Python `int(...)` applied to an optional attribute value.
`int(None)` raises `TypeError`; only an integer rendering parses. -/
def pyInt : Option XText → Except LoadErr Int
  | none => .error .typeError
  | some (.ofInt n) => .ok n
  | some _ => .error .valueError

/-- Reading a text node that the program stores as a plain string. -/
def textAsStr : Option XText → Except LoadErr String
  | some (.ofStr s) => .ok s
  | none => .error .typeError
  | some _ => .error .valueError

/-- Modelled from the spec: `methods.utctime` (module `methods` is not
part of the sources here).  It renders an epoch-seconds date as the
fixed-pattern UTC string `"%a %b %d %H:%M:%S %Y UTC"`; the pattern has
second resolution, so for integer epoch seconds the rendering is a
faithful representation of the value, modelled by `XText.ofDate`. -/
def utctime (date : Int) : XText := .ofDate date

/-- Modelled from the spec: `calendar.timegm(time.strptime(s, FORMAT))`
from `XMLOffsetFile.load` — parse the fixed-pattern UTC date string back
to epoch seconds, treating the parsed fields as UTC.  On the canonical
renderings produced by `utctime` this recovers the exact integer value;
`strptime(None, ...)` raises `TypeError` and a string not matching the
pattern raises `ValueError`. -/
def strptime_timegm : Option XText → Except LoadErr Int
  | none => .error .typeError
  | some (.ofDate s) => .ok s
  | some _ => .error .valueError

/-- Modelled from the spec: the filter-identifier type
`passband.Passband` (module `passband` is not part of the sources
here) — constructible from its string form, convertible back to an
equivalent string via `str` / `.name`, with a natural ordering. -/
structure Passband : Type where
  name : String
deriving DecidableEq, Repr

/-- Modelled from the spec: the natural ordering of filter identifiers,
used by `sorted(annuli.iterkeys())` in `CandidateAnnuli.xml_dump`. -/
def Passband.leB (a b : Passband) : Bool := decide (a.name ≤ b.name)

/-- `'%.{prec}f' % q`: the value rounded to `prec` decimal digits,
kept as the scaled integer of its digits. -/
def fmtFixed (prec : Nat) (q : ℚ) : XText :=
  .ofFixed prec (round (q * (10 : ℚ) ^ prec))

/-- The rational actually denoted by the `'%.{prec}f'` rendering of `q`. -/
def roundTo (prec : Nat) (q : ℚ) : ℚ :=
  ((round (q * (10 : ℚ) ^ prec) : ℚ)) / (10 : ℚ) ^ prec

/-- `setup_header`: split the serialized document into lines, insert the
generation-timestamp comment as line 2, then splice the DTD lines in
after it.  The source works on the newline-split line list
(`xml_content.split('\n')`); the model takes that line list directly.
`now` is the string rendered by `methods.utctime()` for the current
time. -/
def setup_header (xml_lines : List String) (dtd : List String) (now : String) :
    List String :=
  let comment := "<!-- File generated by LEMON on " ++ now ++ " -->"
  let lines := xml_lines.insertIdx 1 comment
  lines.take 2 ++ dtd ++ lines.drop 2

/-- `XMLOffset`: the translation offset between the reference image and
one shifted image.  Fields in source order of `__init__`. -/
structure XMLOffset : Type where
  reference : String
  shifted : String
  object : String
  filter : Passband
  date : Int
  fwhm : ℚ
  airmass : ℚ
  x : ℚ
  y : ℚ
  x_overlap : Int
  y_overlap : Int
deriving DecidableEq, Repr

/-- The `reference` dictionary of an `XMLOffsetFile`: the six fields of
the reference image, keyed `path`, `date`, `filter`, `object`, `fwhm`,
`airmass` in the source. -/
structure RefImage : Type where
  path : String
  date : Int
  filter : Passband
  object : String
  fwhm : ℚ
  airmass : ℚ
deriving DecidableEq, Repr

/-- `XMLOffsetFile`: the reference image metadata plus the list of
`XMLOffset` entries (the object subclasses `list` in the source; the
model holds the list explicitly). -/
structure XMLOffsetFile : Type where
  reference : RefImage
  entries : List XMLOffset
deriving DecidableEq, Repr

/-- The embedded DTD of offsets documents, transcribed line by line from
`XMLOffsetFile.XML_DTD`.  Note the content model `(reference, offset+)`:
one or more `offset` elements are required. -/
def XMLOffsetFile.XML_DTD : List String := [
  "",
  "<!DOCTYPE offsets [",
  "<!ELEMENT offsets (reference, offset+)>",
  "<!ATTLIST offsets size CDATA  #REQUIRED>",
  "",
  "<!ELEMENT reference (image)>",
  "<!ELEMENT offset (image, x_offset, y_offset)>",
  "<!ELEMENT image (path, date, filter, object, fwhm, airmass)>",
  "<!ELEMENT path (#PCDATA)>",
  "<!ELEMENT date (#PCDATA)>",
  "<!ELEMENT filter (#PCDATA)>",
  "<!ELEMENT object (#PCDATA)>",
  "<!ELEMENT fwhm (#PCDATA)>",
  "<!ELEMENT airmass (#PCDATA)>",
  "<!ELEMENT x_offset  (#PCDATA)>",
  "<!ATTLIST x_offset overlap CDATA #REQUIRED>",
  "<!ELEMENT y_offset  (#PCDATA)>",
  "<!ATTLIST y_offset overlap CDATA #REQUIRED>",
  "]>",
  ""]

/-- `XMLOffsetFile.add`: append an entry, guarded by the referential
check `offset.reference != self.reference['path']`.  Python raises
`ValueError` and leaves the object untouched; the model returns the
post-state together with the raised message, if any. -/
def XMLOffsetFile.add (f : XMLOffsetFile) (offset : XMLOffset) :
    XMLOffsetFile × Option String :=
  if offset.reference ≠ f.reference.path then
    (f, some "reference image differs from that of XMLOffsetFile")
  else
    ({ f with entries := f.entries ++ [offset] }, none)

/-- `build_image_element` from `XMLOffsetFile._toxml`: the `image` node
with its six text-valued children in fixed order. -/
def build_image_element (path : String) (date : Int) (filter_ : Passband)
    (object_ : String) (fwhm airmass : ℚ) : XElem :=
  .mk "image" [] none [
    .mk "path" [] (some (.ofStr path)) [],
    .mk "date" [] (some (utctime date)) [],
    .mk "filter" [] (some (.ofStr filter_.name)) [],
    .mk "object" [] (some (.ofStr object_)) [],
    .mk "fwhm" [] (some (.ofRat fwhm)) [],
    .mk "airmass" [] (some (.ofRat airmass)) []]

/-- One `offset` element of the encoded document: the shifted image's
`image` node, then `x_offset` and `y_offset` carrying the overlap counts
as attributes and the offsets as text. -/
def offsetElement (o : XMLOffset) : XElem :=
  .mk "offset" [] none [
    build_image_element o.shifted o.date o.filter o.object o.fwhm o.airmass,
    .mk "x_offset" [("overlap", .ofInt o.x_overlap)] (some (.ofRat o.x)) [],
    .mk "y_offset" [("overlap", .ofInt o.y_overlap)] (some (.ofRat o.y)) []]

/-- The `reference` element of the encoded document. -/
def referenceElement (r : RefImage) : XElem :=
  .mk "reference" [] none
    [build_image_element r.path r.date r.filter r.object r.fwhm r.airmass]

/-- `XMLOffsetFile._toxml`, at the element-tree level: the root
`offsets` node with its `size` attribute, the reference element, and one
`offset` element per entry in list order (never re-sorted). -/
def XMLOffsetFile.toxml (f : XMLOffsetFile) : XElem :=
  .mk "offsets" [("size", .ofInt f.entries.length)] none
    (referenceElement f.reference :: f.entries.map offsetElement)

/-- `parse_image_element` from `XMLOffsetFile.load`: extract the six
values of an `image` node, in source order. -/
def parse_image_element (e : XElem) :
    Except LoadErr (String × Int × Passband × String × ℚ × ℚ) := do
  let pathEl ← get_child e "path"
  let path ← textAsStr pathEl.text
  let dateEl ← get_child e "date"
  let date ← strptime_timegm dateEl.text
  let filterEl ← get_child e "filter"
  let filterStr ← textAsStr filterEl.text
  let filter_ : Passband := ⟨filterStr⟩
  let objectEl ← get_child e "object"
  let object_ ← textAsStr objectEl.text
  let fwhmEl ← get_child e "fwhm"
  let fwhm ← pyFloat fwhmEl.text
  let airmassEl ← get_child e "airmass"
  let airmass ← pyFloat airmassEl.text
  return (path, date, filter_, object_, fwhm, airmass)

/-- The per-`offset`-element body of the loop in `XMLOffsetFile.load`:
reconstruct one `XMLOffset`, its `reference` field taken from the
document's reference path (`offset_file.reference['path']`), never from
the offset block itself. -/
def parseOffsetElement (referencePath : String) (e : XElem) :
    Except LoadErr XMLOffset := do
  let image ← get_child e "image"
  let (path, date, filter_, object_, fwhm, airmass) ← parse_image_element image
  let xEl ← get_child e "x_offset"
  let x_offset ← pyFloat xEl.text
  let x_overlap ← pyInt (xEl.getAttr "overlap")
  let yEl ← get_child e "y_offset"
  let y_offset ← pyFloat yEl.text
  let y_overlap ← pyInt (yEl.getAttr "overlap")
  return { reference := referencePath, shifted := path, object := object_,
           filter := filter_, date := date, fwhm := fwhm, airmass := airmass,
           x := x_offset, y := y_offset,
           x_overlap := x_overlap, y_overlap := y_overlap }

/-- `XMLOffsetFile.load` on the parsed element tree: reconstruct the
reference image from the first `reference` block, then every `offset`
element of the document in document order (not re-sorted).  The source
parses the file with a *non-validating* parser (`lxml.etree.parse` with
the default parser), so no DTD validation happens before or during this
walk. -/
def XMLOffsetFile.load (root : XElem) : Except LoadErr XMLOffsetFile := do
  let reference ← get_child root "reference"
  let image ← get_child reference "image"
  let (path, date, filter_, object_, fwhm, airmass) ← parse_image_element image
  let ref : RefImage := { path := path, date := date, filter := filter_,
                          object := object_, fwhm := fwhm, airmass := airmass }
  let offs := root.iterAll.filter (fun e => e.tag == "offset")
  let entries ← offs.mapM (parseOffsetElement ref.path)
  return { reference := ref, entries := entries }

/-- DTD check for a `(#PCDATA)` element with no attribute declarations:
correct tag, no attributes, no element children. -/
def validPCDATA (tag : String) (e : XElem) : Bool :=
  e.tag == tag && e.attrs.isEmpty && e.children.isEmpty

/-- DTD check for `image (path, date, filter, object, fwhm, airmass)`. -/
def validImage (e : XElem) : Bool :=
  e.tag == "image" && e.attrs.isEmpty &&
  match e.children with
  | [p, d, fl, o, w, a] =>
    validPCDATA "path" p && validPCDATA "date" d && validPCDATA "filter" fl &&
    validPCDATA "object" o && validPCDATA "fwhm" w && validPCDATA "airmass" a
  | _ => false

/-- DTD check for `x_offset` / `y_offset`: `(#PCDATA)` content with the
single required attribute `overlap`. -/
def validCoordinate (tag : String) (e : XElem) : Bool :=
  e.tag == tag && (e.attrs.map Prod.fst == ["overlap"]) && e.children.isEmpty

/-- DTD check for `offset (image, x_offset, y_offset)`. -/
def validOffsetElem (e : XElem) : Bool :=
  e.tag == "offset" && e.attrs.isEmpty &&
  match e.children with
  | [img, x, y] =>
    validImage img && validCoordinate "x_offset" x && validCoordinate "y_offset" y
  | _ => false

/-- DTD check for `reference (image)`. -/
def validReferenceElem (e : XElem) : Bool :=
  e.tag == "reference" && e.attrs.isEmpty &&
  match e.children with
  | [img] => validImage img
  | _ => false

/-- Modelled from the spec: DTD validation by the external XML engine
(`validate_dtd` wraps `lxml.etree.parse` with `dtd_validation=True`),
applied to the embedded offsets DTD `XMLOffsetFile.XML_DTD`.  The
checker transcribes that DTD: root `offsets` with required attribute
`size` and content `(reference, offset+)` — note: one or MORE `offset`
children — with the element and attribute declarations above. -/
def validOffsetsDoc (root : XElem) : Bool :=
  root.tag == "offsets" && (root.attrs.map Prod.fst == ["size"]) &&
  match root.children with
  | ref :: offs =>
    validReferenceElem ref && !offs.isEmpty && offs.all validOffsetElem
  | [] => false

/-- Errors raised on the encode paths: `emptySequence` is the
`ValueError` of `min()` applied to an empty candidate list;
`schemaViolation` is the post-write `validate_dtd` failure. -/
inductive DumpErr : Type where
  | emptySequence
  | schemaViolation
deriving DecidableEq, Repr

/-- Outcome of a dump operation: which document (if any) was physically
written to disk before the operation ended, and the raised exception, if
any.  `written = none` means the failure happened before the output file
was opened, leaving the file system unchanged. -/
structure DumpOutcome : Type where
  written : Option XElem
  error : Option DumpErr

/-- `XMLOffsetFile.dump`: serialize (`_toxml` always succeeds), write
the file, then `validate_dtd` the written file; a validation failure is
raised after the file is already on disk. -/
def XMLOffsetFile.dump (f : XMLOffsetFile) : DumpOutcome :=
  let root := f.toxml
  if validOffsetsDoc root then ⟨some root, none⟩
  else ⟨some root, some .schemaViolation⟩

/-- `CandidateAnnuli`: one evaluated set of photometric parameters. -/
structure CandidateAnnuli : Type where
  aperture : ℚ
  annulus : ℚ
  dannulus : ℚ
  stdev : ℚ
deriving DecidableEq, Repr

/-- The embedded DTD of annuli documents, transcribed line by line from
`CandidateAnnuli.XML_DTD`.  Content model `annuli (band*)`: zero or more
bands. -/
def CandidateAnnuli.XML_DTD : List String := [
  "",
  "<!DOCTYPE annuli [",
  "<!ELEMENT annuli (band*)>",
  "",
  "<!ELEMENT band (candidate*)>",
  "<!ATTLIST band name     CDATA #REQUIRED>",
  "<!ATTLIST band aperture CDATA #REQUIRED>",
  "<!ATTLIST band annulus  CDATA #REQUIRED>",
  "<!ATTLIST band dannulus CDATA #REQUIRED>",
  "<!ATTLIST band stdev    CDATA #REQUIRED>",
  "",
  "<!ELEMENT candidate EMPTY>",
  "<!ATTLIST candidate aperture CDATA #REQUIRED>",
  "<!ATTLIST candidate annulus  CDATA #REQUIRED>",
  "<!ATTLIST candidate dannulus CDATA #REQUIRED>",
  "<!ATTLIST candidate stdev    CDATA #REQUIRED>",
  "]>",
  ""]

/-- `min(candidates, key=operator.attrgetter('stdev'))`: Python's `min`
keeps the first element and replaces it only on a strictly smaller key,
so ties go to the first occurrence; `min` of an empty sequence raises
`ValueError` (`none` here). -/
def min_stdev : List CandidateAnnuli → Option CandidateAnnuli
  | [] => none
  | c :: cs => some (cs.foldl (fun b x => if x.stdev < b.stdev then x else b) c)

/-- The sort key of `list.sort(key=operator.attrgetter('annulus',
'aperture'))`: lexicographic by annulus, then aperture, as a boolean
total preorder for the (stable) merge sort modelling Python's stable
in-place sort. -/
def candLE (a b : CandidateAnnuli) : Bool :=
  decide (a.annulus < b.annulus) ||
    (decide (a.annulus = b.annulus) && decide (a.aperture ≤ b.aperture))

/-- One `candidate` child element, with the four fixed-precision
attributes in source order. -/
def candElement (c : CandidateAnnuli) : XElem :=
  .mk "candidate"
    [("aperture", fmtFixed 5 c.aperture), ("annulus", fmtFixed 5 c.annulus),
     ("dannulus", fmtFixed 5 c.dannulus), ("stdev", fmtFixed 8 c.stdev)]
    none []

/-- One `band` element: the filter name and the best candidate's four
fields as attributes, and one `candidate` child per entry of the (by
then sorted) candidate list. -/
def bandElement (pfilter : Passband) (best : CandidateAnnuli)
    (sortedCands : List CandidateAnnuli) : XElem :=
  .mk "band"
    [("name", .ofStr pfilter.name),
     ("aperture", fmtFixed 5 best.aperture), ("annulus", fmtFixed 5 best.annulus),
     ("dannulus", fmtFixed 5 best.dannulus), ("stdev", fmtFixed 8 best.stdev)]
    none (sortedCands.map candElement)

/-- The in-memory mapping from photometric filter to candidate list
(a Python dict, modelled as an association list; a dict has no
duplicate keys, which appears as a `Nodup` hypothesis where needed). -/
abbrev AnnuliMap := List (Passband × List CandidateAnnuli)

/-- Dict lookup `annuli[pfilter]` (first matching key). -/
def lookupA (m : AnnuliMap) (k : Passband) : Option (List CandidateAnnuli) :=
  match m with
  | [] => none
  | (p, l) :: rest => if p = k then some l else lookupA rest k

/-- Dict lookup defaulting to the empty list (also the read behaviour
of the `collections.defaultdict` built by `xml_load`). -/
def getL (m : AnnuliMap) (k : Passband) : List CandidateAnnuli :=
  (lookupA m k).getD []

/-- Replace the value stored at key `k` (the in-place
`annuli[pfilter].sort(...)` mutation): first occurrence, key order and
everything else untouched. -/
def updateA (m : AnnuliMap) (k : Passband) (v : List CandidateAnnuli) :
    AnnuliMap :=
  match m with
  | [] => []
  | (p, l) :: rest => if p = k then (p, v) :: rest else (p, l) :: updateA rest k v

/-- `sorted(annuli.iterkeys())`: the dict's keys in the natural order of
filter identifiers. -/
def sortedKeys (m : AnnuliMap) : List Passband :=
  (m.map Prod.fst).mergeSort Passband.leB

/-- The per-filter loop of `CandidateAnnuli.xml_dump`, processing the
given keys in order and threading the (mutated-in-place) dictionary:
for each filter, take `best` from the *current* list order, then sort
that list in place by `(annulus, aperture)` and emit the band from the
sorted list.  A missing best (`min` of an empty list) raises
`ValueError` and aborts the whole dump; the raised error carries the
dictionary as mutated so far, since the in-place sorts of filters
already processed persist. -/
def dumpBands (m : AnnuliMap) :
    List Passband → Except DumpErr (List XElem) × AnnuliMap
  | [] => (.ok [], m)
  | k :: ks =>
    match min_stdev (getL m k) with
    | none => (.error .emptySequence, m)
    | some best =>
      let sorted := (getL m k).mergeSort candLE
      let m' := updateA m k sorted
      match dumpBands m' ks with
      | (.error e, mFinal) => (.error e, mFinal)
      | (.ok bands, mFinal) => (.ok (bandElement k best sorted :: bands), mFinal)

/-- DTD check for `candidate EMPTY` with its four required attributes. -/
def validCandidateElem (e : XElem) : Bool :=
  e.tag == "candidate" &&
  (e.attrs.map Prod.fst == ["aperture", "annulus", "dannulus", "stdev"]) &&
  e.children.isEmpty

/-- DTD check for `band (candidate*)` with its five required attributes. -/
def validBandElem (e : XElem) : Bool :=
  e.tag == "band" &&
  (e.attrs.map Prod.fst == ["name", "aperture", "annulus", "dannulus", "stdev"]) &&
  e.children.all validCandidateElem

/-- Modelled from the spec: DTD validation by the external XML engine,
applied to the embedded annuli DTD `CandidateAnnuli.XML_DTD`:
root `annuli (band*)` with no declared attributes. -/
def validAnnuliDoc (root : XElem) : Bool :=
  root.tag == "annuli" && root.attrs.isEmpty && root.children.all validBandElem

/-- `CandidateAnnuli.xml_dump`: build the tree over the filters in
sorted key order (mutating each candidate list in place); only if that
succeeds is the output file opened and written, after which the written
file is DTD-validated.  The result pairs the dump outcome (what reached
the disk, and the exception if any) with the dictionary as the caller
sees it afterwards — on an aborted dump that dictionary keeps the
in-place sorts of the filters processed before the failure. -/
def CandidateAnnuli.xml_dump (annuli : AnnuliMap) : DumpOutcome × AnnuliMap :=
  match dumpBands annuli (sortedKeys annuli) with
  | (.error e, annuli') => (⟨none, some e⟩, annuli')
  | (.ok bands, annuli') =>
    let root := XElem.mk "annuli" [] none bands
    if validAnnuliDoc root then (⟨some root, none⟩, annuli')
    else (⟨some root, some .schemaViolation⟩, annuli')

/-- Append one decoded candidate to the defaultdict being accumulated by
`xml_load` (`annuli[pfilter].append(cand)`): extend the list at the
first occurrence of the key, or create the key at the end. -/
def dictAppend1 (m : AnnuliMap) (k : Passband) (c : CandidateAnnuli) :
    AnnuliMap :=
  match m with
  | [] => [(k, [c])]
  | (p, l) :: rest =>
    if p = k then (p, l ++ [c]) :: rest else (p, l) :: dictAppend1 rest k c

/-- Append a run of decoded candidates for one filter, one at a time. -/
def dictAppendL (m : AnnuliMap) (k : Passband) (cs : List CandidateAnnuli) :
    AnnuliMap :=
  cs.foldl (fun acc c => dictAppend1 acc k c) m

/-- `CandidateAnnuli(*[float(candidate.get(x)) for x in attrs])`: read
one element's four required attributes back into a candidate. -/
def parseCandidate (e : XElem) : Except LoadErr CandidateAnnuli := do
  let aperture ← pyFloat (e.getAttr "aperture")
  let annulus ← pyFloat (e.getAttr "annulus")
  let dannulus ← pyFloat (e.getAttr "dannulus")
  let stdev ← pyFloat (e.getAttr "stdev")
  return ⟨aperture, annulus, dannulus, stdev⟩

/-- The per-`band` body of the loop in `CandidateAnnuli.xml_load`:
reconstruct either the band's best candidate from its attributes
(`best_only`) or every `candidate` child, and accumulate them under the
band's filter. -/
def loadBand (best_only : Bool) (acc : AnnuliMap) (band : XElem) :
    Except LoadErr AnnuliMap := do
  let nameStr ← textAsStr (band.getAttr "name")
  let pfilter : Passband := ⟨nameStr⟩
  if best_only then
    let best ← parseCandidate band
    return dictAppendL acc pfilter [best]
  else
    let cands ← band.children.mapM parseCandidate
    return dictAppendL acc pfilter cands

/-- `CandidateAnnuli.xml_load` on the parsed element tree: iterate the
root's direct children (the bands) in document order, accumulating into
an (initially empty) defaultdict.  As on the offsets read path, the
source parses with a non-validating parser: no DTD validation happens
on load. -/
def CandidateAnnuli.xml_load (root : XElem) (best_only : Bool) :
    Except LoadErr AnnuliMap :=
  root.children.foldlM (loadBand best_only) []

/-- The candidate `min()` returns on a nonempty list (arbitrary default
on the empty list, where the source would have raised). -/
def bestD (l : List CandidateAnnuli) : CandidateAnnuli :=
  (min_stdev l).getD ⟨0, 0, 0, 0⟩

/-- A candidate as it survives the encode/decode round trip: each field
rounded to the precision of its `'%.5f'` / `'%.8f'` rendering. -/
def roundCand (c : CandidateAnnuli) : CandidateAnnuli :=
  ⟨roundTo 5 c.aperture, roundTo 5 c.annulus, roundTo 5 c.dannulus,
   roundTo 8 c.stdev⟩

/-- An `XMLOffsetFile` with reference metadata only and zero entries
(the state right after `__init__`). -/
def emptyOffsetFile : XMLOffsetFile :=
  ⟨⟨"ref.fits", 1329174680, ⟨"Johnson I"⟩, "ngc2264_1minI",
    2861/500, 567/500⟩, []⟩

/-- An offsets document whose `x_offset` element is missing the required
`overlap` attribute: it violates the embedded DTD. -/
def overlapMissingDoc : XElem :=
  .mk "offsets" [("size", .ofInt 1)] none
    [referenceElement ⟨"ref.fits", 1329174680, ⟨"Johnson I"⟩, "ngc2264_1minI",
                       2861/500, 567/500⟩,
     .mk "offset" [] none
       [build_image_element "a.fits" 1329174681 ⟨"Johnson I"⟩ "ngc2264_1minI"
          5 1,
        .mk "x_offset" [] (some (.ofRat (3 / 2))) [],
        .mk "y_offset" [("overlap", .ofInt 10)] (some (.ofRat (-3 / 4))) []]]

/-- An offsets document whose root is missing the required `size`
attribute: it also violates the embedded DTD. -/
def sizeMissingDoc : XElem :=
  .mk "offsets" [] none
    [referenceElement ⟨"ref.fits", 1329174680, ⟨"Johnson I"⟩, "ngc2264_1minI",
                       2861/500, 567/500⟩,
     offsetElement ⟨"ref.fits", "a.fits", "ngc2264_1minI", ⟨"Johnson I"⟩,
                    1329174681, 5, 1, 3/2, -3/4, 12, 10⟩]

/-- The document `xml_dump` writes for the one-filter mapping whose
single candidate has aperture 1/1000000: the `%.5f` rendering rounds
that aperture to 0. -/
def tinyApertureRoot : XElem :=
  .mk "annuli" [] none
    [bandElement ⟨"V"⟩ ⟨1/1000000, 1, 1, 1⟩ [⟨1/1000000, 1, 1, 1⟩]]

/-! ## Theorems -/

/-- C7: for every input text whose first line is the XML declaration and
every schema-line sequence, the composed text has the original
declaration as line 1, a single generation-timestamp comment as line 2,
then all schema lines in order, then the remainder of the original text
unchanged. -/
theorem setup_header_composes (decl : String) (body : List String)
    (dtd : List String) (now : String) :
    setup_header (decl :: body) dtd now =
      decl :: ("<!-- File generated by LEMON on " ++ now ++ " -->") ::
        (dtd ++ body) := by
  simp [setup_header, List.insertIdx]

/-- C3: `add` raises exactly when the entry's reference path differs
from the document's reference path; in the error case the entry list is
unchanged, otherwise the entry is appended at the end. -/
theorem add_guarded (f : XMLOffsetFile) (o : XMLOffset) :
    ((f.add o).2.isSome ↔ o.reference ≠ f.reference.path) ∧
    ((f.add o).2.isSome → (f.add o).1 = f) ∧
    ((f.add o).2 = none →
      (f.add o).1 = { f with entries := f.entries ++ [o] }) := by
  unfold XMLOffsetFile.add
  by_cases h : o.reference = f.reference.path <;> simp [h]

/-- Witness for `add_guarded`: a mismatching entry is rejected with the
list unchanged; a matching entry is appended at the end. -/
theorem add_guarded_witness :
    (XMLOffsetFile.add ⟨⟨"ref.fits", 0, ⟨"V"⟩, "obj", 1, 1⟩, []⟩
        ⟨"other.fits", "a.fits", "obj", ⟨"V"⟩, 5, 1, 1, 0, 0, 1, 1⟩).1 =
      ⟨⟨"ref.fits", 0, ⟨"V"⟩, "obj", 1, 1⟩, []⟩ ∧
    (XMLOffsetFile.add ⟨⟨"ref.fits", 0, ⟨"V"⟩, "obj", 1, 1⟩, []⟩
        ⟨"other.fits", "a.fits", "obj", ⟨"V"⟩, 5, 1, 1, 0, 0, 1, 1⟩).2.isSome ∧
    (XMLOffsetFile.add ⟨⟨"ref.fits", 0, ⟨"V"⟩, "obj", 1, 1⟩, []⟩
        ⟨"ref.fits", "a.fits", "obj", ⟨"V"⟩, 5, 1, 1, 0, 0, 1, 1⟩).1 =
      ⟨⟨"ref.fits", 0, ⟨"V"⟩, "obj", 1, 1⟩,
       [⟨"ref.fits", "a.fits", "obj", ⟨"V"⟩, 5, 1, 1, 0, 0, 1, 1⟩]⟩ := by
  refine ⟨?_, ?_, ?_⟩
  · exact (add_guarded _ _).2.1 (((add_guarded _ _).1).2 (by decide))
  · exact ((add_guarded _ _).1).2 (by decide)
  · exact (add_guarded ⟨⟨"ref.fits", 0, ⟨"V"⟩, "obj", 1, 1⟩, []⟩
      ⟨"ref.fits", "a.fits", "obj", ⟨"V"⟩, 5, 1, 1, 0, 0, 1, 1⟩).2.2 (by decide)

/-- C6, counterexample: encoding an `XMLOffsetFile` with zero entries
does NOT produce a document that passes the write-path schema
validation — the embedded DTD declares `offsets (reference, offset+)`,
which requires at least one `offset` element. -/
theorem dump_empty_fails_validation :
    validOffsetsDoc (XMLOffsetFile.toxml emptyOffsetFile) = false ∧
    (XMLOffsetFile.dump emptyOffsetFile).error = some .schemaViolation := by
  exact ⟨rfl, rfl⟩

/-- C6, amended: an encoded offsets document must contain one-or-more
`offset` elements; encoding an `XMLOffsetFile` with zero entries emits a
root whose `size` attribute is `0`, but the written file fails the
write-path schema validation (raised only after the file is on disk). -/
theorem dump_empty_size_zero (f : XMLOffsetFile) (h : f.entries = []) :
    f.toxml.getAttr "size" = some (.ofInt 0) ∧
    validOffsetsDoc f.toxml = false ∧
    f.dump = ⟨some f.toxml, some .schemaViolation⟩ := by
  obtain ⟨r, es⟩ := f
  subst h
  exact ⟨rfl, rfl, rfl⟩

/-- Witness for `dump_empty_size_zero` at a concrete empty document. -/
theorem dump_empty_size_zero_witness :
    emptyOffsetFile.toxml.getAttr "size" = some (.ofInt 0) ∧
    validOffsetsDoc emptyOffsetFile.toxml = false ∧
    emptyOffsetFile.dump = ⟨some emptyOffsetFile.toxml, some .schemaViolation⟩ :=
  dump_empty_size_zero emptyOffsetFile rfl

/-- C1: the read path does NOT validate against the embedded schema.
`XMLOffsetFile.load` parses with a non-validating parser, so (i) on a
document missing the required `overlap` attribute on `x_offset` the
decode proceeds to field extraction and aborts with a `TypeError` from
`int(None)` — not with a schema-violation error — and (ii) a document
missing the required `size` attribute on the root fails validation yet
is decoded successfully, returning a full result. -/
theorem load_skips_validation :
    validOffsetsDoc overlapMissingDoc = false ∧
    XMLOffsetFile.load overlapMissingDoc = .error .typeError ∧
    validOffsetsDoc sizeMissingDoc = false ∧
    (XMLOffsetFile.load sizeMissingDoc).isOk = true := by
  exact ⟨rfl, rfl, rfl, rfl⟩

/-- In a duplicate-free association list (a dict), membership of a pair
determines the lookup. -/
theorem lookupA_eq_of_mem (m : AnnuliMap) (hnd : (m.map Prod.fst).Nodup)
    (p : Passband) (l : List CandidateAnnuli) (h : (p, l) ∈ m) :
    lookupA m p = some l := by
  induction m with
  | nil => cases h
  | cons hd tl ih =>
    simp only [List.map_cons, List.nodup_cons] at hnd
    rcases List.mem_cons.mp h with heq | hmem
    · subst heq
      simp [lookupA]
    · have hne : hd.1 ≠ p := by
        intro he
        exact hnd.1 (he ▸ List.mem_map_of_mem Prod.fst hmem)
      obtain ⟨p₁, l₁⟩ := hd
      simp only [lookupA, if_neg hne]
      exact ih hnd.2 hmem

/-- Updating one key leaves lookups of every other key unchanged. -/
theorem lookupA_updateA_ne (m : AnnuliMap) (k p : Passband)
    (v : List CandidateAnnuli) (h : p ≠ k) :
    lookupA (updateA m k v) p = lookupA m p := by
  induction m with
  | nil => rfl
  | cons hd tl ih =>
    obtain ⟨p₁, l₁⟩ := hd
    by_cases h₁ : p₁ = k
    · subst h₁
      have hne : p₁ ≠ p := fun he => h he.symm
      simp [updateA, lookupA, hne]
    · simp only [updateA, if_neg h₁, lookupA]
      by_cases h₂ : p₁ = p <;> simp [h₂, ih]

/-- Updating one key preserves the dict's key sequence. -/
theorem updateA_map_fst (m : AnnuliMap) (k : Passband)
    (v : List CandidateAnnuli) :
    (updateA m k v).map Prod.fst = m.map Prod.fst := by
  induction m with
  | nil => rfl
  | cons hd tl ih =>
    obtain ⟨p₁, l₁⟩ := hd
    by_cases h : p₁ = k <;> simp [updateA, h, ih]

/-- `min()` of a nonempty list returns its fold result. -/
theorem min_stdev_ne_nil (l : List CandidateAnnuli) (h : l ≠ []) :
    min_stdev l = some (bestD l) := by
  cases l with
  | nil => exact absurd rfl h
  | cons c cs => rfl

/-- If some requested key holds an empty candidate list, the band loop
raises the `ValueError` of `min()` on an empty sequence (whatever the
state of the partially sorted dictionary by then). -/
theorem dumpBands_error_of_empty (ks : List Passband) (m : AnnuliMap)
    (p : Passband) (hp : p ∈ ks) (he : getL m p = []) :
    (dumpBands m ks).1 = .error .emptySequence := by
  induction ks generalizing m with
  | nil => cases hp
  | cons k ks ih =>
    by_cases hk : getL m k = []
    · simp [dumpBands, hk, min_stdev]
    · have hbest := min_stdev_ne_nil (getL m k) hk
      have hpk : p ≠ k := fun hpe => hk (hpe ▸ he)
      have hp' : p ∈ ks := by
        rcases List.mem_cons.mp hp with h | h
        · exact absurd h hpk
        · exact h
      have he' : getL (updateA m k ((getL m k).mergeSort candLE)) p = [] := by
        unfold getL
        rw [lookupA_updateA_ne m k p _ hpk]
        exact he
      rcases hres : dumpBands (updateA m k ((getL m k).mergeSort candLE)) ks
        with ⟨r, mf⟩
      have hr : r = Except.error DumpErr.emptySequence := by
        have hih := ih (updateA m k ((getL m k).mergeSort candLE)) hp' he'
        rw [hres] at hih
        exact hih
      subst hr
      simp [dumpBands, hbest, hres]

/-- C10: if any filter of the mapping holds an empty candidate list,
`xml_dump` raises the `ValueError` of `min()` over an empty sequence
while still building the tree — before any file is opened or written
(`written = none`), leaving the file system unchanged.  (The in-place
sorts of filters processed before the empty one do persist in the
caller's dictionary, which this statement therefore leaves
unconstrained.) -/
theorem xml_dump_empty_list_raises (m : AnnuliMap) (p : Passband)
    (hnd : (m.map Prod.fst).Nodup) (hp : (p, []) ∈ m) :
    (CandidateAnnuli.xml_dump m).1 = ⟨none, some .emptySequence⟩ := by
  have hmem : p ∈ sortedKeys m := by
    unfold sortedKeys
    exact (List.mergeSort_perm (m.map Prod.fst) Passband.leB).mem_iff.mpr
      (List.mem_map_of_mem Prod.fst hp)
  have he : getL m p = [] := by
    unfold getL
    rw [lookupA_eq_of_mem m hnd p [] hp]
    rfl
  unfold CandidateAnnuli.xml_dump
  rcases hres : dumpBands m (sortedKeys m) with ⟨r, mf⟩
  have hr : r = Except.error DumpErr.emptySequence := by
    have herr := dumpBands_error_of_empty (sortedKeys m) m p hmem he
    rw [hres] at herr
    exact herr
  subst hr
  simp [hres]

/-- Witness for `xml_dump_empty_list_raises` at a concrete one-filter
mapping with an empty candidate list. -/
theorem xml_dump_empty_list_raises_witness :
    (CandidateAnnuli.xml_dump [(⟨"V"⟩, [])]).1 =
      ⟨none, some .emptySequence⟩ :=
  xml_dump_empty_list_raises [(⟨"V"⟩, [])] ⟨"V"⟩ (by simp)
    (List.mem_singleton.mpr rfl)

/-- `root.getiterator(tag='offset')` on an encoded offsets document
yields exactly the encoded `offset` elements, in entry order. -/
theorem filter_offset_toxml (f : XMLOffsetFile) :
    (XMLOffsetFile.toxml f).iterAll.filter (fun e => e.tag == "offset") =
      f.entries.map offsetElement := by
  have hforest : ∀ es : List XMLOffset,
      (iterForest (es.map offsetElement)).filter (fun e => e.tag == "offset") =
        es.map offsetElement := by
    intro es
    induction es with
    | nil => rfl
    | cons o rest ih =>
      have h1 : iterForest ((o :: rest).map offsetElement) =
          (offsetElement o).iterAll ++ iterForest (rest.map offsetElement) := rfl
      rw [h1, List.filter_append, ih]
      rfl
  have h2 : (XMLOffsetFile.toxml f).iterAll =
      XMLOffsetFile.toxml f ::
        ((referenceElement f.reference).iterAll ++
          iterForest (f.entries.map offsetElement)) := rfl
  rw [h2]
  have h3 : ∀ l : List XElem,
      (XMLOffsetFile.toxml f :: l).filter (fun e => e.tag == "offset") =
        l.filter (fun e => e.tag == "offset") := fun l => rfl
  rw [h3, List.filter_append]
  rw [show (referenceElement f.reference).iterAll.filter
        (fun e => e.tag == "offset") = ([] : List XElem) from rfl]
  rw [hforest]
  rfl

/-- Decoding the encoded `offset` elements recovers the entries
verbatim, provided each entry's reference path already equals the
document's (the invariant `add` maintains). -/
theorem mapM_parseOffset (rp : String) (es : List XMLOffset)
    (h : ∀ o ∈ es, o.reference = rp) :
    (es.map offsetElement).mapM (parseOffsetElement rp) = Except.ok es := by
  induction es with
  | nil => rfl
  | cons o rest ih =>
    have ho : o.reference = rp := h o (List.mem_cons_self o rest)
    have ih' := ih (fun x hx => h x (List.mem_cons_of_mem o hx))
    have hpe : parseOffsetElement rp (offsetElement o) = Except.ok o := by
      rw [← ho]
      rfl
    simp only [List.map_cons, List.mapM_cons, hpe, ih']
    rfl

/-- C2: decoding the document produced by encoding an `XMLOffsetFile`
yields the same reference descriptor and the same ordered entry
sequence, field-wise equal (dates are integer epoch seconds, recovered
exactly through the second-resolution date format), in on-disk order —
never re-sorted.  The hypothesis is the document invariant that every
entry's reference path equals the document's reference path. -/
theorem load_toxml_roundtrip (f : XMLOffsetFile)
    (h : ∀ o ∈ f.entries, o.reference = f.reference.path) :
    XMLOffsetFile.load (XMLOffsetFile.toxml f) = .ok f := by
  have hstep : XMLOffsetFile.load (XMLOffsetFile.toxml f) =
      ((XMLOffsetFile.toxml f).iterAll.filter (fun e => e.tag == "offset")).mapM
          (parseOffsetElement f.reference.path) >>=
        (fun entries => pure ⟨f.reference, entries⟩) := rfl
  rw [hstep, filter_offset_toxml, mapM_parseOffset f.reference.path f.entries h]
  rfl

/-- Witness for `load_toxml_roundtrip`: the concrete scenario of the
spec — reference `"ref.fits"` at epoch `1329174680`, one offset of the
image `"./data/ferM_016_obfs.fits"` with x=1.5, y=-0.75, overlaps 12
and 10 — encodes and decodes back to itself. -/
theorem load_toxml_roundtrip_witness :
    XMLOffsetFile.load (XMLOffsetFile.toxml
      ⟨⟨"ref.fits", 1329174680, ⟨"Johnson I"⟩, "ngc2264_1minI",
        2861/500, 567/500⟩,
       [⟨"ref.fits", "./data/ferM_016_obfs.fits", "ngc2264_1minI",
         ⟨"Johnson I"⟩, 1329174680, 2861/500, 567/500, 3/2, -3/4, 12, 10⟩]⟩) =
    .ok ⟨⟨"ref.fits", 1329174680, ⟨"Johnson I"⟩, "ngc2264_1minI",
        2861/500, 567/500⟩,
       [⟨"ref.fits", "./data/ferM_016_obfs.fits", "ngc2264_1minI",
         ⟨"Johnson I"⟩, 1329174680, 2861/500, 567/500, 3/2, -3/4, 12, 10⟩]⟩ :=
  load_toxml_roundtrip _ (by decide)

/-- On a duplicate-free dict, updating a key is a pointwise map. -/
theorem updateA_eq_map (m : AnnuliMap) (hnd : (m.map Prod.fst).Nodup)
    (k : Passband) (v : List CandidateAnnuli) :
    updateA m k v = m.map (fun pl => if pl.1 = k then (pl.1, v) else pl) := by
  induction m with
  | nil => rfl
  | cons hd tl ih =>
    obtain ⟨p₁, l₁⟩ := hd
    simp only [List.map_cons, List.nodup_cons] at hnd
    by_cases h : p₁ = k
    · subst h
      have hall : ∀ pl ∈ tl, (if pl.1 = p₁ then (pl.1, v) else pl) = pl := by
        intro pl hpl
        rw [if_neg]
        intro he
        exact hnd.1 (he ▸ List.mem_map_of_mem Prod.fst hpl)
      simp only [updateA, if_pos rfl, List.map_cons, if_pos rfl]
      rw [List.map_congr_left hall]
      simp
    · simp only [updateA, if_neg h, List.map_cons, if_neg h]
      rw [ih hnd.2]

/-- The band loop on duplicate-free keys, all of whose candidate lists
are nonempty: it emits, per key in order, the band built from that
key's original list (best from the pre-sort order, children from the
sorted list), and leaves the dict with exactly the processed keys'
lists sorted in place. -/
theorem dumpBands_ok (ks : List Passband) (m : AnnuliMap)
    (hndm : (m.map Prod.fst).Nodup) (hndk : ks.Nodup)
    (hne : ∀ k ∈ ks, getL m k ≠ []) :
    dumpBands m ks =
      (.ok (ks.map (fun k =>
         bandElement k (bestD (getL m k)) ((getL m k).mergeSort candLE))),
       m.map (fun pl =>
         if pl.1 ∈ ks then (pl.1, pl.2.mergeSort candLE) else pl)) := by
  induction ks generalizing m with
  | nil =>
    simp [dumpBands]
  | cons k ks ih =>
    have hkne := hne k (List.mem_cons_self k ks)
    have hbest := min_stdev_ne_nil _ hkne
    simp only [List.nodup_cons] at hndk
    have hm'fst : (updateA m k ((getL m k).mergeSort candLE)).map Prod.fst =
        m.map Prod.fst := updateA_map_fst m k _
    have hndm' : ((updateA m k ((getL m k).mergeSort candLE)).map
        Prod.fst).Nodup := by
      rw [hm'fst]; exact hndm
    have hgetL' : ∀ p, p ≠ k →
        getL (updateA m k ((getL m k).mergeSort candLE)) p = getL m p := by
      intro p hp
      unfold getL
      rw [lookupA_updateA_ne m k p _ hp]
    have hne' : ∀ k' ∈ ks,
        getL (updateA m k ((getL m k).mergeSort candLE)) k' ≠ [] := by
      intro k' hk'
      have hkk : k' ≠ k := fun he => hndk.1 (he ▸ hk')
      rw [hgetL' k' hkk]
      exact hne k' (List.mem_cons_of_mem k hk')
    have ihm := ih (updateA m k ((getL m k).mergeSort candLE)) hndm' hndk.2 hne'
    simp only [dumpBands, hbest, ihm]
    refine Prod.ext ?_ ?_
    · refine congrArg Except.ok ?_
      simp only [List.map_cons]
      refine congrArg (bandElement k (bestD (getL m k))
        ((getL m k).mergeSort candLE) :: ·) ?_
      refine List.map_congr_left ?_
      intro k' hk'
      have hkk : k' ≠ k := fun he => hndk.1 (he ▸ hk')
      rw [hgetL' k' hkk]
    · rw [updateA_eq_map m hndm k _, List.map_map]
      refine List.map_congr_left ?_
      intro pl hpl
      by_cases hk : pl.1 = k
      · have h1 : getL m pl.1 = pl.2 := by
          unfold getL
          rw [lookupA_eq_of_mem m hndm pl.1 pl.2 (by simpa using hpl)]
          rfl
        have hknotin : pl.1 ∉ ks := hk ▸ hndk.1
        simp only [Function.comp_apply, if_pos hk, hknotin, if_neg,
          List.mem_cons, hk, true_or, if_true]
        rw [← hk, h1]
        simp [hknotin]
      · have hmem : pl.1 ∈ k :: ks ↔ pl.1 ∈ ks := by
          simp [List.mem_cons, hk]
        simp only [Function.comp_apply, if_neg hk, hmem]

/-- `candLE` is transitive. -/
theorem candLE_trans (a b c : CandidateAnnuli) (h1 : candLE a b = true)
    (h2 : candLE b c = true) : candLE a c = true := by
  simp only [candLE, Bool.or_eq_true, Bool.and_eq_true, decide_eq_true_eq]
    at h1 h2 ⊢
  rcases h1 with h1 | ⟨h1e, h1a⟩ <;> rcases h2 with h2 | ⟨h2e, h2a⟩
  · exact Or.inl (h1.trans h2)
  · exact Or.inl (by rw [← h2e]; exact h1)
  · exact Or.inl (by rw [h1e]; exact h2)
  · exact Or.inr ⟨h1e.trans h2e, h1a.trans h2a⟩

/-- `candLE` is total. -/
theorem candLE_total (a b : CandidateAnnuli) :
    (candLE a b || candLE b a) = true := by
  simp only [candLE, Bool.or_eq_true, Bool.and_eq_true, decide_eq_true_eq]
  rcases lt_trichotomy a.annulus b.annulus with h | h | h
  · exact Or.inl (Or.inl h)
  · rcases le_total a.aperture b.aperture with ha | ha
    · exact Or.inl (Or.inr ⟨h, ha⟩)
    · exact Or.inr (Or.inr ⟨h.symm, ha⟩)
  · exact Or.inr (Or.inl h)

/-- Every emitted band element satisfies the band declarations of the
annuli DTD. -/
theorem validBandElem_bandElement (p : Passband) (b : CandidateAnnuli)
    (sl : List CandidateAnnuli) :
    validBandElem (bandElement p b sl) = true := by
  simp only [validBandElem, bandElement, XElem.tag, XElem.attrs,
    XElem.children, Bool.and_eq_true, List.all_eq_true]
  refine ⟨⟨rfl, rfl⟩, ?_⟩
  intro x hx
  obtain ⟨c, _, rfl⟩ := List.mem_map.mp hx
  rfl

/-- In a duplicate-free dict, a member pair determines `getL`. -/
theorem getL_mem (m : AnnuliMap) (hndm : (m.map Prod.fst).Nodup)
    (p : Passband) (l : List CandidateAnnuli) (h : (p, l) ∈ m) :
    getL m p = l := by
  unfold getL
  rw [lookupA_eq_of_mem m hndm p l h]
  rfl

/-- The sorted key sequence holds exactly the dict's keys. -/
theorem mem_sortedKeys (m : AnnuliMap) (p : Passband) :
    p ∈ sortedKeys m ↔ p ∈ m.map Prod.fst :=
  (List.mergeSort_perm (m.map Prod.fst) Passband.leB).mem_iff

/-- The root element assembled from emitted bands passes the annuli DTD
check (which is why a successful tree build always validates). -/
theorem validAnnuliDoc_of_bands (bands : List XElem)
    (h : ∀ e ∈ bands, validBandElem e = true) :
    validAnnuliDoc (.mk "annuli" [] none bands) = true := by
  simp only [validAnnuliDoc, XElem.tag, XElem.attrs, XElem.children,
    Bool.and_eq_true, List.all_eq_true]
  exact ⟨⟨rfl, rfl⟩, h⟩

/-- With duplicate-free keys and no empty candidate list, the sorted
key sequence sees only nonempty lists. -/
theorem sortedKeys_lists_ne (m : AnnuliMap)
    (hndm : (m.map Prod.fst).Nodup)
    (hne : ∀ p l, (p, l) ∈ m → l ≠ []) :
    ∀ k ∈ sortedKeys m, getL m k ≠ [] := by
  intro k hk
  obtain ⟨pl, hpl, hfst⟩ :=
    List.mem_map.mp ((mem_sortedKeys m k).mp hk)
  have hple : (k, pl.2) ∈ m := by
    rw [← hfst]
    simpa using hpl
  rw [getL_mem m hndm k pl.2 hple]
  exact hne k pl.2 hple

/-- A successful `xml_dump` in closed form: the written root holds one
band per filter in sorted key order, and the caller's dict has every
key's list sorted in place. -/
theorem xml_dump_ok (m : AnnuliMap)
    (hndm : (m.map Prod.fst).Nodup)
    (hne : ∀ p l, (p, l) ∈ m → l ≠ []) :
    CandidateAnnuli.xml_dump m =
      (⟨some (.mk "annuli" [] none ((sortedKeys m).map (fun k =>
          bandElement k (bestD (getL m k)) ((getL m k).mergeSort candLE)))),
        none⟩,
       m.map (fun pl =>
         if pl.1 ∈ sortedKeys m then (pl.1, pl.2.mergeSort candLE) else pl)) := by
  have hndk : (sortedKeys m).Nodup :=
    ((List.mergeSort_perm (m.map Prod.fst) Passband.leB).nodup_iff).mpr hndm
  have hdb := dumpBands_ok (sortedKeys m) m hndm hndk
    (sortedKeys_lists_ne m hndm hne)
  have hvalid : validAnnuliDoc (.mk "annuli" [] none
      ((sortedKeys m).map (fun k =>
        bandElement k (bestD (getL m k)) ((getL m k).mergeSort candLE)))) =
      true := by
    refine validAnnuliDoc_of_bands _ ?_
    intro x hx
    obtain ⟨k, _, rfl⟩ := List.mem_map.mp hx
    exact validBandElem_bandElement _ _ _
  unfold CandidateAnnuli.xml_dump
  rw [hdb]
  simp only [hvalid, if_true]

/-- C8: a successful `xml_dump` re-sorts each filter's caller-owned
candidate list in place by ascending (annulus, aperture); afterwards the
caller's dictionary holds, per key (same keys, same order), exactly the
stably sorted permutation of its previous list — same length, same
element values — and nothing else changed. -/
theorem xml_dump_sorts_in_place (m : AnnuliMap)
    (hndm : (m.map Prod.fst).Nodup)
    (hne : ∀ p l, (p, l) ∈ m → l ≠ []) :
    ∃ root, CandidateAnnuli.xml_dump m =
        (⟨some root, none⟩, m.map (fun pl => (pl.1, pl.2.mergeSort candLE))) ∧
      ∀ pl ∈ m, (pl.2.mergeSort candLE).Perm pl.2 ∧
        (pl.2.mergeSort candLE).Pairwise (fun a b => candLE a b = true) := by
  refine ⟨.mk "annuli" [] none ((sortedKeys m).map (fun k =>
      bandElement k (bestD (getL m k)) ((getL m k).mergeSort candLE))),
    ?_, ?_⟩
  · rw [xml_dump_ok m hndm hne]
    refine congrArg (Prod.mk _) ?_
    refine List.map_congr_left ?_
    intro pl hpl
    rw [if_pos ((mem_sortedKeys m pl.1).mpr (List.mem_map_of_mem Prod.fst hpl))]
  · intro pl _
    exact ⟨List.mergeSort_perm pl.2 candLE,
      List.sorted_mergeSort candLE_trans candLE_total pl.2⟩

/-- Witness for `xml_dump_sorts_in_place` at a one-filter mapping whose
list is out of order. -/
theorem xml_dump_sorts_in_place_witness :
    ∃ root, CandidateAnnuli.xml_dump
        [(⟨"V"⟩, [⟨2, 9, 3, 1/100⟩, ⟨1, 8, 3, 2/100⟩])] =
        (⟨some root, none⟩,
         [(⟨"V"⟩, [⟨2, 9, 3, 1/100⟩, ⟨1, 8, 3, 2/100⟩])].map
           (fun pl => (pl.1, pl.2.mergeSort candLE))) ∧
      ∀ pl ∈ [((⟨"V"⟩ : Passband),
          [(⟨2, 9, 3, 1/100⟩ : CandidateAnnuli), ⟨1, 8, 3, 2/100⟩])],
        (pl.2.mergeSort candLE).Perm pl.2 ∧
        (pl.2.mergeSort candLE).Pairwise (fun a b => candLE a b = true) := by
  refine xml_dump_sorts_in_place _ (by simp) ?_
  rintro p l h
  rw [List.mem_singleton, Prod.mk.injEq] at h
  rw [h.2]
  decide

/-- Invariant of Python's `min` fold: the running result is minimal over
the initial value and everything consumed, and is either the initial
value itself or sits in the list strictly below the initial value and
below every element before it. -/
theorem minAcc_spec (l : List CandidateAnnuli) (b : CandidateAnnuli) :
    (l.foldl (fun b x => if x.stdev < b.stdev then x else b) b).stdev ≤
        b.stdev ∧
    (∀ c ∈ l,
      (l.foldl (fun b x => if x.stdev < b.stdev then x else b) b).stdev ≤
        c.stdev) ∧
    ((l.foldl (fun b x => if x.stdev < b.stdev then x else b) b) = b ∨
      ∃ l₁ l₂,
        l = l₁ ++ (l.foldl (fun b x => if x.stdev < b.stdev then x else b) b)
              :: l₂ ∧
        (l.foldl (fun b x => if x.stdev < b.stdev then x else b) b).stdev <
          b.stdev ∧
        ∀ c ∈ l₁,
          (l.foldl (fun b x => if x.stdev < b.stdev then x else b) b).stdev <
            c.stdev) := by
  induction l generalizing b with
  | nil =>
    exact ⟨le_refl _, fun c hc => absurd hc (List.not_mem_nil c), Or.inl rfl⟩
  | cons x xs ih =>
    by_cases hx : x.stdev < b.stdev
    · rw [List.foldl_cons, if_pos hx]
      obtain ⟨h1, h2, h3⟩ := ih x
      refine ⟨h1.trans hx.le, ?_, ?_⟩
      · intro c hc
        rcases List.mem_cons.mp hc with rfl | hc
        · exact h1
        · exact h2 c hc
      · rcases h3 with he | ⟨l₁, l₂, hsplit, hlt, hpre⟩
        · refine Or.inr ⟨[], xs, ?_, ?_, fun c hc => absurd hc
            (List.not_mem_nil c)⟩
          · rw [he]
            rfl
          · rw [he]
            exact hx
        · refine Or.inr ⟨x :: l₁, l₂, by rw [List.cons_append, ← hsplit],
            hlt.trans hx, ?_⟩
          intro c hc
          rcases List.mem_cons.mp hc with rfl | hc
          · exact hlt
          · exact hpre c hc
    · rw [List.foldl_cons, if_neg hx]
      obtain ⟨h1, h2, h3⟩ := ih b
      push_neg at hx
      refine ⟨h1, ?_, ?_⟩
      · intro c hc
        rcases List.mem_cons.mp hc with rfl | hc
        · exact h1.trans hx
        · exact h2 c hc
      · rcases h3 with he | ⟨l₁, l₂, hsplit, hlt, hpre⟩
        · exact Or.inl he
        · refine Or.inr ⟨x :: l₁, l₂, by rw [List.cons_append, ← hsplit],
            hlt, ?_⟩
          intro c hc
          rcases List.mem_cons.mp hc with rfl | hc
          · exact hlt.trans_le hx
          · exact hpre c hc

/-- `min(..., key=attrgetter('stdev'))` returns a member of the list of
minimal stdev, and it is the *first* occurrence of that minimum: every
element before it has strictly larger stdev. -/
theorem min_stdev_first_min (l : List CandidateAnnuli) (b : CandidateAnnuli)
    (h : min_stdev l = some b) :
    b ∈ l ∧ (∀ c ∈ l, b.stdev ≤ c.stdev) ∧
      ∃ l₁ l₂, l = l₁ ++ b :: l₂ ∧ ∀ c ∈ l₁, b.stdev < c.stdev := by
  cases l with
  | nil => cases h
  | cons c cs =>
    simp only [min_stdev, Option.some.injEq] at h
    obtain ⟨h1, h2, h3⟩ := minAcc_spec cs c
    rw [h] at h1 h2 h3
    refine ⟨?_, ?_, ?_⟩
    · rcases h3 with he | ⟨l₁, l₂, hsplit, _, _⟩
      · rw [he]
        exact List.mem_cons_self c cs
      · rw [hsplit]
        exact List.mem_cons_of_mem c (List.mem_append_right l₁
          (List.mem_cons_self b l₂))
    · intro c' hc'
      rcases List.mem_cons.mp hc' with rfl | hc'
      · exact h1
      · exact h2 c' hc'
    · rcases h3 with he | ⟨l₁, l₂, hsplit, hlt, hpre⟩
      · refine ⟨[], cs, ?_, fun c' hc' => absurd hc' (List.not_mem_nil c')⟩
        rw [he]
        rfl
      · refine ⟨c :: l₁, l₂, by rw [List.cons_append, ← hsplit], ?_⟩
        intro c' hc'
        rcases List.mem_cons.mp hc' with rfl | hc'
        · exact hlt
        · exact hpre c' hc'

/-- C4: for every filter with a nonempty candidate list, the emitted
band element carries the attributes of the candidate with minimum
stdev — ties broken by first occurrence in the filter's current list
order — with aperture/annulus/dannulus rendered to 5 decimal places and
stdev to 8 (`fmtFixed`). -/
theorem xml_dump_best_selection (m : AnnuliMap)
    (hndm : (m.map Prod.fst).Nodup)
    (hne : ∀ p l, (p, l) ∈ m → l ≠ [])
    (p : Passband) (l : List CandidateAnnuli) (hm : (p, l) ∈ m) :
    ∃ root m' b,
      CandidateAnnuli.xml_dump m = (⟨some root, none⟩, m') ∧
      min_stdev l = some b ∧
      XElem.mk "band"
          [("name", .ofStr p.name),
           ("aperture", fmtFixed 5 b.aperture),
           ("annulus", fmtFixed 5 b.annulus),
           ("dannulus", fmtFixed 5 b.dannulus),
           ("stdev", fmtFixed 8 b.stdev)]
          none ((l.mergeSort candLE).map candElement) ∈ root.children ∧
      b ∈ l ∧ (∀ c ∈ l, b.stdev ≤ c.stdev) ∧
      ∃ l₁ l₂, l = l₁ ++ b :: l₂ ∧ ∀ c ∈ l₁, b.stdev < c.stdev := by
  have hl : l ≠ [] := hne p l hm
  have hb := min_stdev_ne_nil l hl
  obtain ⟨hmem, hmin, hfirst⟩ := min_stdev_first_min l (bestD l) hb
  refine ⟨.mk "annuli" [] none ((sortedKeys m).map (fun k =>
      bandElement k (bestD (getL m k)) ((getL m k).mergeSort candLE))),
    m.map (fun pl =>
      if pl.1 ∈ sortedKeys m then (pl.1, pl.2.mergeSort candLE) else pl),
    bestD l, xml_dump_ok m hndm hne, hb, ?_, hmem, hmin, hfirst⟩
  have hp : p ∈ sortedKeys m :=
    (mem_sortedKeys m p).mpr (List.mem_map_of_mem Prod.fst hm)
  have hmm : bandElement p (bestD (getL m p)) ((getL m p).mergeSort candLE) ∈
      (sortedKeys m).map (fun k =>
        bandElement k (bestD (getL m k)) ((getL m k).mergeSort candLE)) :=
    List.mem_map_of_mem
      (fun k => bandElement k (bestD (getL m k)) ((getL m k).mergeSort candLE))
      hp
  rw [getL_mem m hndm p l hm] at hmm
  exact hmm

/-- Witness for `xml_dump_best_selection`: the spec's example — stdev
values 0.012, 0.008, 0.015 for filter `V`; the best is the second
candidate, whose stdev 0.008 is what the band carries. -/
theorem xml_dump_best_selection_witness :
    ∃ root m' b,
      CandidateAnnuli.xml_dump
          [(⟨"V"⟩, [⟨1, 10, 3, 12/1000⟩, ⟨2, 11, 4, 8/1000⟩,
                    ⟨3, 12, 5, 15/1000⟩])] =
        (⟨some root, none⟩, m') ∧
      min_stdev [⟨1, 10, 3, 12/1000⟩, ⟨2, 11, 4, 8/1000⟩,
                 ⟨3, 12, 5, 15/1000⟩] = some b ∧
      XElem.mk "band"
          [("name", .ofStr (⟨"V"⟩ : Passband).name),
           ("aperture", fmtFixed 5 b.aperture),
           ("annulus", fmtFixed 5 b.annulus),
           ("dannulus", fmtFixed 5 b.dannulus),
           ("stdev", fmtFixed 8 b.stdev)]
          none ((([⟨1, 10, 3, 12/1000⟩, ⟨2, 11, 4, 8/1000⟩,
                   ⟨3, 12, 5, 15/1000⟩] :
              List CandidateAnnuli).mergeSort candLE).map candElement) ∈
        root.children ∧
      b ∈ [⟨1, 10, 3, 12/1000⟩, ⟨2, 11, 4, 8/1000⟩, ⟨3, 12, 5, 15/1000⟩] ∧
      (∀ c ∈ [(⟨1, 10, 3, 12/1000⟩ : CandidateAnnuli), ⟨2, 11, 4, 8/1000⟩,
              ⟨3, 12, 5, 15/1000⟩], b.stdev ≤ c.stdev) ∧
      ∃ l₁ l₂, [(⟨1, 10, 3, 12/1000⟩ : CandidateAnnuli), ⟨2, 11, 4, 8/1000⟩,
                ⟨3, 12, 5, 15/1000⟩] = l₁ ++ b :: l₂ ∧
        ∀ c ∈ l₁, b.stdev < c.stdev := by
  refine xml_dump_best_selection _ (by simp) ?_ ⟨"V"⟩ _
    (List.mem_singleton.mpr rfl)
  rintro p l h
  rw [List.mem_singleton, Prod.mk.injEq] at h
  rw [h.2]
  decide

/-- Decoding an emitted candidate element recovers the candidate with
each field rounded to its rendered precision. -/
theorem parseCandidate_candElement (c : CandidateAnnuli) :
    parseCandidate (candElement c) = .ok (roundCand c) := rfl

/-- Decoding a run of emitted candidate elements. -/
theorem mapM_parseCandidate (sl : List CandidateAnnuli) :
    (sl.map candElement).mapM parseCandidate = Except.ok (sl.map roundCand) := by
  induction sl with
  | nil => rfl
  | cons c cs ih =>
    simp only [List.map_cons, List.mapM_cons, parseCandidate_candElement, ih]
    rfl

/-- Decoding one emitted band element (full mode) appends the rounded
candidates under the band's filter. -/
theorem loadBand_bandElement (acc : AnnuliMap) (k : Passband)
    (b : CandidateAnnuli) (sl : List CandidateAnnuli) :
    loadBand false acc (bandElement k b sl) =
      .ok (dictAppendL acc k (sl.map roundCand)) := by
  have hstep : loadBand false acc (bandElement k b sl) =
      (sl.map candElement).mapM parseCandidate >>=
        (fun cands => pure (dictAppendL acc k cands)) := rfl
  rw [hstep, mapM_parseCandidate]
  rfl

/-- Decoding a sequence of emitted band elements folds the per-band
appends, in band order. -/
theorem foldlM_loadBand (ks : List Passband) (B : Passband → CandidateAnnuli)
    (F : Passband → List CandidateAnnuli) (acc : AnnuliMap) :
    (ks.map (fun k => bandElement k (B k) (F k))).foldlM (loadBand false)
        acc =
      Except.ok (ks.foldl (fun a k => dictAppendL a k ((F k).map roundCand))
        acc) := by
  induction ks generalizing acc with
  | nil => rfl
  | cons k ks ih =>
    simp only [List.map_cons, List.foldlM_cons, loadBand_bandElement]
    exact ih (dictAppendL acc k ((F k).map roundCand))

/-- A single defaultdict append leaves other keys' lookups unchanged. -/
theorem lookupA_dictAppend1_ne (m : AnnuliMap) (k p : Passband)
    (c : CandidateAnnuli) (h : p ≠ k) :
    lookupA (dictAppend1 m k c) p = lookupA m p := by
  induction m with
  | nil =>
    have hne : k ≠ p := fun he => h he.symm
    simp [dictAppend1, lookupA, hne]
  | cons hd tl ih =>
    obtain ⟨p₁, l₁⟩ := hd
    by_cases h₁ : p₁ = k
    · subst h₁
      have hne : p₁ ≠ p := fun he => h he.symm
      simp [dictAppend1, lookupA, hne]
    · simp only [dictAppend1, if_neg h₁, lookupA]
      by_cases h₂ : p₁ = p <;> simp [h₂, ih]

/-- A single defaultdict append extends the key's list by one. -/
theorem getL_dictAppend1 (m : AnnuliMap) (k : Passband) (c : CandidateAnnuli) :
    getL (dictAppend1 m k c) k = getL m k ++ [c] := by
  induction m with
  | nil => simp [dictAppend1, getL, lookupA]
  | cons hd tl ih =>
    obtain ⟨p₁, l₁⟩ := hd
    by_cases h₁ : p₁ = k
    · subst h₁
      simp [dictAppend1, getL, lookupA]
    · simp only [dictAppend1, if_neg h₁, getL, lookupA]
      exact ih

/-- Appending a run of candidates leaves other keys' lookups
unchanged. -/
theorem lookupA_dictAppendL_ne (cs : List CandidateAnnuli) (m : AnnuliMap)
    (k p : Passband) (h : p ≠ k) :
    lookupA (dictAppendL m k cs) p = lookupA m p := by
  induction cs generalizing m with
  | nil => rfl
  | cons c cs ih =>
    have hstep : dictAppendL m k (c :: cs) =
        dictAppendL (dictAppend1 m k c) k cs := rfl
    rw [hstep, ih (dictAppend1 m k c), lookupA_dictAppend1_ne m k p c h]

/-- Appending a run of candidates extends the key's list by the run. -/
theorem getL_dictAppendL (cs : List CandidateAnnuli) (m : AnnuliMap)
    (k : Passband) :
    getL (dictAppendL m k cs) k = getL m k ++ cs := by
  induction cs generalizing m with
  | nil => simp [dictAppendL]
  | cons c cs ih =>
    have hstep : dictAppendL m k (c :: cs) =
        dictAppendL (dictAppend1 m k c) k cs := rfl
    rw [hstep, ih (dictAppend1 m k c), getL_dictAppend1 m k c]
    simp

/-- Folding per-band appends over duplicate-free keys: each key ends up
holding exactly its own run. -/
theorem getL_foldl_dictAppendL (ks : List Passband)
    (G : Passband → List CandidateAnnuli) (acc : AnnuliMap) (p : Passband)
    (hp : p ∈ ks) (hnd : ks.Nodup) (hacc : lookupA acc p = none) :
    getL (ks.foldl (fun a k => dictAppendL a k (G k)) acc) p = G p := by
  revert hp hnd hacc
  induction ks generalizing acc with
  | nil =>
    intro hp _ _
    cases hp
  | cons k ks ih =>
    intro hp hnd hacc
    simp only [List.nodup_cons] at hnd
    simp only [List.foldl_cons]
    have hpres : ∀ (ks' : List Passband) (a : AnnuliMap), p ∉ ks' →
        getL (ks'.foldl (fun a k => dictAppendL a k (G k)) a) p = getL a p := by
      intro ks'
      induction ks' with
      | nil => intro a _; rfl
      | cons k' ks' ih' =>
        intro a hnot
        simp only [List.foldl_cons]
        rw [ih' _ (fun hmem => hnot (List.mem_cons_of_mem k' hmem))]
        unfold getL
        rw [lookupA_dictAppendL_ne (G k') a k' p
          (fun he => hnot (he ▸ List.mem_cons_self k' ks'))]
    rcases List.mem_cons.mp hp with rfl | hp'
    · rw [hpres ks _ hnd.1]
      rw [getL_dictAppendL]
      have hempty : getL acc p = [] := by
        unfold getL
        rw [hacc]
        rfl
      rw [hempty]
      rfl
    · have hpk : p ≠ k := fun he => hnd.1 (he ▸ hp')
      have hacc' : lookupA (dictAppendL acc k (G k)) p = none := by
        rw [lookupA_dictAppendL_ne (G k) acc k p hpk, hacc]
      exact ih (dictAppendL acc k (G k)) hp' hnd.2 hacc'

/-- C5 (amended): decoding with `best_only = False` the file produced
by encoding a mapping yields, for each filter, the filter's candidates
sorted ascending by (annulus, aperture) with every field rounded to its
emitted precision (aperture/annulus/dannulus to 5 decimal places, stdev
to 8); whenever all fields are exactly representable at those
precisions this is the same multiset as the original, listed in
ascending (annulus, aperture) order. -/
theorem annuli_roundtrip (m : AnnuliMap)
    (hndm : (m.map Prod.fst).Nodup)
    (hne : ∀ p l, (p, l) ∈ m → l ≠ []) :
    ∃ root m' dec,
      CandidateAnnuli.xml_dump m = (⟨some root, none⟩, m') ∧
      CandidateAnnuli.xml_load root false = .ok dec ∧
      ∀ p l, (p, l) ∈ m →
        getL dec p = (l.mergeSort candLE).map roundCand ∧
        ((∀ c ∈ l, roundCand c = c) →
          ((getL dec p : Multiset CandidateAnnuli) =
            (l : Multiset CandidateAnnuli)) ∧
          (getL dec p).Pairwise (fun a b => candLE a b = true)) := by
  have hndk : (sortedKeys m).Nodup :=
    ((List.mergeSort_perm (m.map Prod.fst) Passband.leB).nodup_iff).mpr hndm
  refine ⟨.mk "annuli" [] none ((sortedKeys m).map (fun k =>
      bandElement k (bestD (getL m k)) ((getL m k).mergeSort candLE))),
    m.map (fun pl =>
      if pl.1 ∈ sortedKeys m then (pl.1, pl.2.mergeSort candLE) else pl),
    (sortedKeys m).foldl (fun a k =>
      dictAppendL a k (((getL m k).mergeSort candLE).map roundCand)) [],
    xml_dump_ok m hndm hne, ?_, ?_⟩
  · exact foldlM_loadBand (sortedKeys m) (fun k => bestD (getL m k))
      (fun k => (getL m k).mergeSort candLE) []
  · intro p l hm
    have hp : p ∈ sortedKeys m :=
      (mem_sortedKeys m p).mpr (List.mem_map_of_mem Prod.fst hm)
    have hkey : getL ((sortedKeys m).foldl (fun a k =>
        dictAppendL a k (((getL m k).mergeSort candLE).map roundCand)) []) p =
        ((getL m p).mergeSort candLE).map roundCand :=
      getL_foldl_dictAppendL (sortedKeys m)
        (fun k => ((getL m k).mergeSort candLE).map roundCand) [] p hp hndk rfl
    rw [getL_mem m hndm p l hm] at hkey
    refine ⟨hkey, ?_⟩
    intro hrep
    have hmapid : (l.mergeSort candLE).map roundCand = l.mergeSort candLE := by
      have hpw : ∀ c ∈ l.mergeSort candLE, roundCand c = id c := by
        intro c hc
        exact hrep c ((List.mergeSort_perm l candLE).mem_iff.mp hc)
      rw [List.map_congr_left hpw, List.map_id]
    rw [hkey, hmapid]
    exact ⟨Multiset.coe_eq_coe.mpr (List.mergeSort_perm l candLE),
      List.sorted_mergeSort candLE_trans candLE_total l⟩

/-- Witness for `annuli_roundtrip`: a one-filter mapping with two
5-decimal-representable candidates, out of order. -/
theorem annuli_roundtrip_witness :
    ∃ root m' dec,
      CandidateAnnuli.xml_dump
          [(⟨"V"⟩, [⟨2, 9, 3, 1/100⟩, ⟨1, 8, 3, 2/100⟩])] =
        (⟨some root, none⟩, m') ∧
      CandidateAnnuli.xml_load root false = .ok dec ∧
      ∀ p l, (p, l) ∈
          [((⟨"V"⟩ : Passband),
            [(⟨2, 9, 3, 1/100⟩ : CandidateAnnuli), ⟨1, 8, 3, 2/100⟩])] →
        getL dec p = (l.mergeSort candLE).map roundCand ∧
        ((∀ c ∈ l, roundCand c = c) →
          ((getL dec p : Multiset CandidateAnnuli) =
            (l : Multiset CandidateAnnuli)) ∧
          (getL dec p).Pairwise (fun a b => candLE a b = true)) := by
  refine annuli_roundtrip _ (by simp) ?_
  rintro p l h
  rw [List.mem_singleton, Prod.mk.injEq] at h
  rw [h.2]
  decide

/-- A stable sort of a one-element list is that list. -/
theorem mergeSort_single {α : Type} (le : α → α → Bool) (a : α) :
    List.mergeSort [a] le = [a] :=
  List.perm_singleton.mp (List.mergeSort_perm [a] le)

/-- C5, counterexample to the claim as stated: for the mapping sending
filter `V` to the single candidate with aperture 1/1000000, the decode
of the encode yields the candidate with aperture 0 — not the same
multiset as the original, because the `'%.5f'` rendering is lossy. -/
theorem annuli_roundtrip_counterexample :
    CandidateAnnuli.xml_dump [(⟨"V"⟩, [⟨1/1000000, 1, 1, 1⟩])] =
      (⟨some tinyApertureRoot, none⟩, [(⟨"V"⟩, [⟨1/1000000, 1, 1, 1⟩])]) ∧
    CandidateAnnuli.xml_load tinyApertureRoot false =
      .ok [(⟨"V"⟩, [⟨0, 1, 1, 1⟩])] ∧
    ¬ ((([⟨0, 1, 1, 1⟩] : List CandidateAnnuli) : Multiset CandidateAnnuli) =
       (([⟨1/1000000, 1, 1, 1⟩] : List CandidateAnnuli) :
         Multiset CandidateAnnuli)) := by
  refine ⟨?_, ?_, ?_⟩
  · have hne : ∀ p l, (p, l) ∈
        [((⟨"V"⟩ : Passband),
          [(⟨1/1000000, 1, 1, 1⟩ : CandidateAnnuli)])] → l ≠ [] := by
      rintro p l h
      rw [List.mem_singleton, Prod.mk.injEq] at h
      rw [h.2]
      decide
    have hd := xml_dump_ok [(⟨"V"⟩, [⟨1/1000000, 1, 1, 1⟩])] (by simp) hne
    have hkeys : sortedKeys [((⟨"V"⟩ : Passband),
        [(⟨1/1000000, 1, 1, 1⟩ : CandidateAnnuli)])] = [⟨"V"⟩] :=
      mergeSort_single _ _
    rw [hkeys] at hd
    rw [hd]
    have hms : ([(⟨1/1000000, 1, 1, 1⟩ : CandidateAnnuli)]).mergeSort candLE =
        [⟨1/1000000, 1, 1, 1⟩] := mergeSort_single _ _
    have hgm : getL [((⟨"V"⟩ : Passband),
        [(⟨1/1000000, 1, 1, 1⟩ : CandidateAnnuli)])] ⟨"V"⟩ =
        [⟨1/1000000, 1, 1, 1⟩] := rfl
    simp only [List.map_cons, List.map_nil, List.mem_singleton, hgm, hms]
    rfl
  · have hl : CandidateAnnuli.xml_load tinyApertureRoot false =
        .ok (dictAppendL [] ⟨"V"⟩
          ([(⟨1/1000000, 1, 1, 1⟩ : CandidateAnnuli)].map roundCand)) := by
      have hb := loadBand_bandElement [] ⟨"V"⟩ ⟨1/1000000, 1, 1, 1⟩
        [⟨1/1000000, 1, 1, 1⟩]
      show ([bandElement ⟨"V"⟩ ⟨1/1000000, 1, 1, 1⟩
          [⟨1/1000000, 1, 1, 1⟩]]).foldlM (loadBand false) [] = _
      rw [List.foldlM_cons, hb]
      rfl
    rw [hl]
    have hrc : roundCand ⟨1/1000000, 1, 1, 1⟩ = ⟨0, 1, 1, 1⟩ := by
      simp only [roundCand, roundTo, CandidateAnnuli.mk.injEq]
      norm_num
    simp only [List.map_cons, List.map_nil, hrc]
    rfl
  · intro h
    have heq := List.perm_singleton.mp (Multiset.coe_eq_coe.mp h)
    simp only [List.cons.injEq, CandidateAnnuli.mk.injEq, and_true] at heq
    exact absurd heq (by norm_num)

/-- Inversion for a successful `Except` bind. -/
theorem except_bind_ok {ε α β : Type} (x : Except ε α) (f : α → Except ε β)
    (b : β) (h : (x >>= f) = .ok b) : ∃ a, x = .ok a ∧ f a = .ok b := by
  cases x with
  | error e =>
    exact absurd h (by simp [Bind.bind, Except.bind])
  | ok a => exact ⟨a, rfl, h⟩

/-- Inversion for a successful `mapM`: every output element comes from
some input element. -/
theorem mapM_ok_mem {ε α β : Type} (f : α → Except ε β) (l : List α)
    (bs : List β) (h : l.mapM f = .ok bs) (b : β) (hb : b ∈ bs) :
    ∃ a ∈ l, f a = .ok b := by
  induction l generalizing bs with
  | nil =>
    rw [List.mapM_nil] at h
    cases Except.ok.inj h
    cases hb
  | cons a l ih =>
    rw [List.mapM_cons] at h
    obtain ⟨b₁, h1, h⟩ := except_bind_ok _ _ _ h
    obtain ⟨bs₁, h2, h⟩ := except_bind_ok _ _ _ h
    cases Except.ok.inj h
    rcases List.mem_cons.mp hb with rfl | hb'
    · exact ⟨a, List.mem_cons_self a l, h1⟩
    · obtain ⟨a', ha', hfa⟩ := ih bs₁ h2 hb'
      exact ⟨a', List.mem_cons_of_mem a ha', hfa⟩

/-- Every entry reconstructed by the offset-block parser carries the
caller-supplied reference path, whatever the block's content. -/
theorem parseOffsetElement_reference (rp : String) (e : XElem)
    (o : XMLOffset) (h : parseOffsetElement rp e = .ok o) :
    o.reference = rp := by
  unfold parseOffsetElement at h
  obtain ⟨img, h1, h⟩ := except_bind_ok _ _ _ h
  obtain ⟨tup, h2, h⟩ := except_bind_ok _ _ _ h
  obtain ⟨path, date, filter_, object_, fwhm, airmass⟩ := tup
  obtain ⟨xEl, h3, h⟩ := except_bind_ok _ _ _ h
  obtain ⟨x_offset, h4, h⟩ := except_bind_ok _ _ _ h
  obtain ⟨x_overlap, h5, h⟩ := except_bind_ok _ _ _ h
  obtain ⟨yEl, h6, h⟩ := except_bind_ok _ _ _ h
  obtain ⟨y_offset, h7, h⟩ := except_bind_ok _ _ _ h
  obtain ⟨y_overlap, h8, h⟩ := except_bind_ok _ _ _ h
  exact (Except.ok.inj h) ▸ rfl

/-- C9: every entry of a document produced by `XMLOffsetFile.load` has
its `reference` field equal to the loaded document's reference path —
it is copied from `offset_file.reference['path']`, never read from the
offset block — so the referential-integrity invariant holds for every
loaded document. -/
theorem load_entries_reference (t : XElem) (doc : XMLOffsetFile)
    (h : XMLOffsetFile.load t = .ok doc) :
    ∀ e ∈ doc.entries, e.reference = doc.reference.path := by
  unfold XMLOffsetFile.load at h
  obtain ⟨refEl, h1, h⟩ := except_bind_ok _ _ _ h
  obtain ⟨img, h2, h⟩ := except_bind_ok _ _ _ h
  obtain ⟨tup, h3, h⟩ := except_bind_ok _ _ _ h
  obtain ⟨path, date, filter_, object_, fwhm, airmass⟩ := tup
  obtain ⟨entries, h4, h⟩ := except_bind_ok _ _ _ h
  cases Except.ok.inj h
  intro e he
  obtain ⟨el, _, hparse⟩ := mapM_ok_mem _ _ _ h4 e he
  exact parseOffsetElement_reference _ el e hparse

/-- Witness for `load_entries_reference` at a concrete document (one
whose root even lacks the `size` attribute, which `load` accepts). -/
theorem load_entries_reference_witness :
    (XMLOffset.mk "ref.fits" "a.fits" "ngc2264_1minI" ⟨"Johnson I"⟩
        1329174681 5 1 (3/2) (-3/4) 12 10).reference =
      (XMLOffsetFile.mk
        ⟨"ref.fits", 1329174680, ⟨"Johnson I"⟩, "ngc2264_1minI",
         2861/500, 567/500⟩
        [⟨"ref.fits", "a.fits", "ngc2264_1minI", ⟨"Johnson I"⟩,
          1329174681, 5, 1, 3/2, -3/4, 12, 10⟩]).reference.path :=
  load_entries_reference sizeMissingDoc _ rfl _ (List.mem_singleton.mpr rfl)
